import Mathlib

/-!
Verification of the mqroute topic-matching trie, callback resolver, dispatch
runner and reconnect backoff, as a shallow embedding of the Python sources
`src/mqttdeco/callback_resolver.py`, `src/mqroute/callback_runner.py` and
`src/mqroute/mqtt_client.py`.

Callables are modelled by identifiers (`Nat`); what a call to a handler does is
supplied as an explicit execution environment where needed.  Python `dict`s are
modelled by insertion-ordered association structures, since Python dictionaries
preserve insertion order and both registration and matching iterate over them in
that order.  Exceptions are modelled with `Except`.
-/

namespace Mqroute

/-! ### Models of the Python string primitives used by the source -/

/-- Worker for `pySplit`: accumulates the current segment (reversed). -/
def pySplitGo : List Char → List Char → List String
  | [], acc => [String.mk acc.reverse]
  | c :: cs, acc =>
    if c = '/' then String.mk acc.reverse :: pySplitGo cs []
    else pySplitGo cs (c :: acc)

/-- Python `s.split("/")`: e.g. `"a/b" ↦ ["a","b"]`, `"" ↦ [""]`, `"a//b" ↦ ["a","","b"]`. -/
def pySplit (s : String) : List String := pySplitGo s.toList []

/-- Python `"/".join(xs)`. -/
def pyJoin : List String → String
  | [] => ""
  | [x] => x
  | x :: y :: rest => x ++ "/" ++ pyJoin (y :: rest)

/-- Python `s[1:-1]`: the string with its first and last characters removed
(`"+" ↦ ""`, `"+x+" ↦ "x"`, `"+temp" ↦ "tem"`). -/
def pyMid (s : String) : String := String.mk ((s.toList.drop 1).dropLast)

/-- Python `s.startswith(c)` for a one-character prefix. -/
def pyStartsWith (s : String) (c : Char) : Bool :=
  match s.toList with
  | [] => false
  | c' :: _ => c' = c

/-! ### `callback_resolver.py`: `MatchState`, `TopicNode`, `TopicMatch` -/

/-- `MatchState` enum of `callback_resolver.py`. -/
inductive MatchState where
  | NoMatch
  | RootNode
  | PartialTopic
  | FullTopic
deriving DecidableEq, Repr

mutual
/-- One trie node (`TopicNode` dataclass): `part` is `None` for the root,
`"+"`, `"#"` or a literal segment otherwise; `parameter` is the parameter name
stored on a `"+"` node; `callback` the registered handler (modelled by an id);
`nodes` the children dictionary. -/
inductive TopicNode : Type where
  | node (part : Option String) (parameter : Option String) (callback : Option Nat)
      (nodes : TNodeMap) : TopicNode

/-- The children dictionary `dict[str, TopicNode]` of a `TopicNode`, as an
insertion-ordered association structure (Python dicts preserve insertion
order; `for node in self.nodes.values()` iterates in that order). -/
inductive TNodeMap : Type where
  | nil : TNodeMap
  | cons (key : String) (child : TopicNode) (rest : TNodeMap) : TNodeMap
end

def TopicNode.part : TopicNode → Option String
  | .node p _ _ _ => p

def TopicNode.parameter : TopicNode → Option String
  | .node _ p _ _ => p

def TopicNode.callback : TopicNode → Option Nat
  | .node _ _ c _ => c

def TopicNode.nodes : TopicNode → TNodeMap
  | .node _ _ _ ns => ns

/-- Dictionary lookup `self.nodes[part]` (as `try/except KeyError`). -/
def TNodeMap.find : TNodeMap → String → Option TopicNode
  | .nil, _ => none
  | .cons k c rest, key => if k = key then some c else rest.find key

/-- Overwriting the value of an existing key keeps its position (Python dict
assignment on a present key). -/
def TNodeMap.set : TNodeMap → String → TopicNode → TNodeMap
  | .nil, _, _ => .nil
  | .cons k c rest, key, v => if k = key then .cons k v rest else .cons k c (rest.set key v)

/-- Assignment `self.nodes[part] = node` for a fresh key appends at the end
(Python dict insertion order). -/
def TNodeMap.append : TNodeMap → String → TopicNode → TNodeMap
  | .nil, key, v => .cons key v .nil
  | .cons k c rest, key, v => .cons k c (rest.append key v)

/-- Python truthiness of the children dict (`not self.nodes`). -/
def TNodeMap.isEmpty : TNodeMap → Bool
  | .nil => true
  | .cons _ _ _ => false

/-- The keys of the children dictionary, in insertion order. -/
def TNodeMap.keys : TNodeMap → List String
  | .nil => []
  | .cons k _ rest => k :: rest.keys

/-- `TopicNode.register(parts, callback_method)`.  The head segment is
classified by its first character (`startswith`): `"+…"` becomes key `"+"`
carrying `parts[0][1:-1]` as parameter name, `"#…"` becomes key `"#"`, anything
else is a literal key.  An existing child is reused (its stored parameter is
kept); a missing child is created and appended.  On the last segment the
child's callback is overwritten.  The `[]` case cannot be reached from the
resolver (`split` never yields `[]` and recursion stops at singletons); Python
would raise `IndexError` there. -/
def TopicNode.register (n : TopicNode) : List String → Nat → TopicNode
  | [], _ => n
  | p :: rest, cb =>
    let key := if pyStartsWith p '+' then "+" else if pyStartsWith p '#' then "#" else p
    let parameter : Option String := if pyStartsWith p '+' then some (pyMid p) else none
    match n.nodes.find key with
    | some child =>
      let child' := if rest = [] then
          TopicNode.node child.part child.parameter (some cb) child.nodes
        else child.register rest cb
      TopicNode.node n.part n.parameter n.callback (n.nodes.set key child')
    | none =>
      let child := TopicNode.node key parameter none .nil
      let child' := if rest = [] then
          TopicNode.node child.part child.parameter (some cb) child.nodes
        else child.register rest cb
      TopicNode.node n.part n.parameter n.callback (n.nodes.append key child')

/-- Python `dict.update`: each pair of `upd` in order overwrites an existing
key in place or is appended. -/
def updateParams (base upd : List (String × String)) : List (String × String) :=
  match upd with
  | [] => base
  | (k, v) :: rest =>
    updateParams (if base.any (fun kv => kv.1 = k)
                  then base.map (fun kv => if kv.1 = k then (k, v) else kv)
                  else base ++ [(k, v)]) rest

/-- `TopicNode.__check_topic(parts)`: a `"#"` node is always a full match; a
`"+"` node records `parts[0]` under its parameter name when that name is truthy
(non-`None`, non-empty) and then, like a matching literal node, is a full match
when `parts` is the last segment and the node is childless, no match when the
last segment is reached but children remain, and a partial match otherwise.
The `[]` case is unreachable from the resolver (Python would raise
`IndexError` accessing `parts[0]`). -/
def TopicNode.checkTopic (n : TopicNode) : List String → MatchState × List (String × String)
  | [] => (.NoMatch, [])
  | p0 :: rest =>
    if n.part = some "#" then (.FullTopic, [])
    else if n.part = some "+" then
      let params : List (String × String) :=
        match n.parameter with
        | some s => if s = "" then [] else [(s, p0)]
        | none => []
      if rest = [] then
        (if n.nodes.isEmpty then (.FullTopic, params) else (.NoMatch, params))
      else (.PartialTopic, params)
    else if n.part = some p0 then
      if rest = [] then
        (if n.nodes.isEmpty then (.FullTopic, []) else (.NoMatch, []))
      else (.PartialTopic, [])
    else (.NoMatch, [])

/-- `TopicMatch` dataclass: the matched node, the extracted parameters and
(once set by the resolver) the concrete topic. -/
structure TopicMatch where
  node : TopicNode
  parameters : List (String × String)
  topic : Option String

mutual
/-- `TopicNode.get_matching_nodes(topic_parts, parameters)`: the root
(`part is None`) fans out to all children with the parts unchanged; a full
match returns the node with the merged parameters; a partial match fans out to
all children with the first part consumed; otherwise no result.
(`copy.deepcopy` of the incoming parameters is the identity in this pure
model.) -/
def TopicNode.getMatchingNodes : TopicNode → List String → List (String × String) → List TopicMatch
  | .node part parameter callback children, parts, params =>
    let st : MatchState × List (String × String) :=
      if part = none then (.RootNode, [])
      else (TopicNode.node part parameter callback children).checkTopic parts
    let localParams := updateParams params st.2
    match st.1 with
    | .FullTopic => [⟨.node part parameter callback children, localParams, none⟩]
    | .PartialTopic => TNodeMap.getMatchingList children (parts.drop 1) localParams
    | .RootNode => TNodeMap.getMatchingList children parts localParams
    | .NoMatch => []

/-- The loop `for node in self.nodes.values(): … extend(…)` over the children
dictionary, in insertion order. -/
def TNodeMap.getMatchingList : TNodeMap → List String → List (String × String) → List TopicMatch
  | .nil, _, _ => []
  | .cons _ c rest, parts, params =>
    c.getMatchingNodes parts params ++ TNodeMap.getMatchingList rest parts params
end

/-! ### `callback_resolver.py`: `CallbackRequest`, `CallbackResolver` -/

/-- `MQTTMessage` dataclass (`mqtt_message.py`); the payload union is modelled
as a string, its content is irrelevant to the verified properties. -/
structure MQTTMessage where
  topic : String
  message : String
deriving DecidableEq, Repr

/-- `CallbackRequest` dataclass (`callback_request.py`). -/
structure CallbackRequest where
  cb_method : Option Nat
  parameters : List (String × String)
  topic : Option String
deriving DecidableEq, Repr

/-- Lookup in the memo of `@lru_cache(maxsize=128)` on
`CallbackResolver.get_matching_nodes`, keyed by the topic string. -/
def cacheFind : List (String × List TopicMatch) → String → Option (List TopicMatch)
  | [], _ => none
  | (k, v) :: rest, key => if k = key then some v else cacheFind rest key

/-- `CallbackResolver`: the root `TopicNode(part=None)` plus the memo of the
`@lru_cache`-decorated `get_matching_nodes`.  The cache is modelled unbounded:
`maxsize=128` only evicts once 128 distinct topics have been looked up, which
never happens in the properties below. -/
structure CallbackResolver where
  root : TopicNode
  cache : List (String × List TopicMatch)

/-- A fresh `CallbackResolver()`. -/
def CallbackResolver.init : CallbackResolver :=
  ⟨TopicNode.node none none none .nil, []⟩

/-- The `real_topic` loop of `CallbackResolver.register`: each part starting
with `"+"` is appended as `"+"`, each part starting with `"#"` as `"#"`, any
other part unchanged. -/
def realTopicParts : List String → List String
  | [] => []
  | part :: rest =>
    (if pyStartsWith part '+' then "+" else if pyStartsWith part '#' then "#" else part)
      :: realTopicParts rest

/-- `CallbackResolver.register(topic, callback)`: splits the topic on `"/"`,
registers into the trie, and returns the rejoined normalized topic.  The
lookup cache is NOT touched (the source never invalidates its `lru_cache`). -/
def CallbackResolver.register (r : CallbackResolver) (topic : String) (cb : Nat) :
    CallbackResolver × String :=
  let topicParts := pySplit topic
  (⟨r.root.register topicParts cb, r.cache⟩, pyJoin (realTopicParts topicParts))

/-- `CallbackResolver.get_matching_nodes(topic)` including its `@lru_cache`:
on a cache hit the memoized list is returned unchanged; on a miss the trie is
searched, each match gets `match.topic = topic`, and the result is memoized.
Returns the matches together with the updated resolver state. -/
def CallbackResolver.getMatchingNodes (r : CallbackResolver) (topic : String) :
    List TopicMatch × CallbackResolver :=
  match cacheFind r.cache topic with
  | some res => (res, r)
  | none =>
    let ms := (r.root.getMatchingNodes (pySplit topic) []).map
      (fun m => ⟨m.node, m.parameters, some topic⟩)
    (ms, ⟨r.root, r.cache ++ [(topic, ms)]⟩)

/-- `CallbackResolver.callbacks(topic)`: wraps each match into a
`CallbackRequest`. -/
def CallbackResolver.callbacks (r : CallbackResolver) (topic : String) :
    List CallbackRequest × CallbackResolver :=
  let (ms, r') := r.getMatchingNodes topic
  (ms.map (fun m => ⟨m.node.callback, m.parameters, m.topic⟩), r')

/-- Registering a list of `(pattern, handler)` pairs in order on a fresh
resolver, as the application would at startup. -/
def buildResolver (ps : List (String × Nat)) : CallbackResolver :=
  ps.foldl (fun r pc => (r.register pc.1 pc.2).1) CallbackResolver.init

/-! ### `callback_runner.py`: `CallbackRunner` -/

/-- `CallbackRunner.process_callbacks`, run over the queued items.  The loop
body invokes `request.cb_method(request.topic, msg, request.parameters)`
(awaited or not); `exec` gives the outcome of that invocation (`.ok` for a
normal return, `.error` for a raised exception).  The body has NO
`try/except`: a raised exception propagates out of the `while True` loop and
the consumer task dies.  The result is the list of items whose handler ran to
completion, together with the uncaught exception, if any; items queued after a
raising one are never dequeued. -/
def processCallbacks (exec : CallbackRequest → MQTTMessage → Except String Unit) :
    List (CallbackRequest × MQTTMessage) →
    List (CallbackRequest × MQTTMessage) × Option String
  | [] => ([], none)
  | (req, msg) :: rest =>
    match exec req msg with
    | .ok _ =>
      let r := processCallbacks exec rest
      ((req, msg) :: r.1, r.2)
    | .error e => ([], some e)

/-- The state of a `CallbackRunner` relevant to `run_callback`: the `__ready`
flag (set when `process_callbacks` starts), whether `__loop` has been set, and
the queue contents. -/
structure CallbackRunner where
  ready : Bool
  loopSet : Bool
  queue : List (CallbackRequest × MQTTMessage)
deriving DecidableEq, Repr

/-- `CallbackRunner.run_callback(cb_request, msg)`: when `__ready` is false it
prints a notice and returns — the request is dropped, nothing is queued and
nothing is retried; otherwise, when the loop is set, the pair is enqueued via
`run_coroutine_threadsafe(queue.put(…))`.  The call never raises. -/
def CallbackRunner.run_callback (r : CallbackRunner) (cb : CallbackRequest) (msg : MQTTMessage) :
    CallbackRunner :=
  if !r.ready then r
  else if r.loopSet then ⟨r.ready, r.loopSet, r.queue ++ [(cb, msg)]⟩
  else r

/-! ### `mqtt_client.py`: the reconnect backoff of `MQTTClient.reconnect` -/

/-- The initial `self.__backoff_time` set in `MQTTClient.__init__`. -/
def backoffBase : ℚ := 1

/-- One failed attempt in `MQTTClient.reconnect`:
`backoff = min(60, backoff * 2 + uniform(0, 1))`; `j` models the drawn
`uniform(0, 1)` jitter. -/
def reconnectStep (b j : ℚ) : ℚ := min 60 (b * 2 + j)

/-- The successive values of the local `backoff` variable over a run of
consecutive failed attempts whose jitter draws are `js`, starting from `b`. -/
def reconnectSeq : ℚ → List ℚ → List ℚ
  | b, [] => [b]
  | b, j :: js => b :: reconnectSeq (reconnectStep b j) js

/-! ### Derived notions used to state the general theorems -/

/-- A literal (wildcard-free) pattern segment: classified neither as `"+"` nor
as `"#"` by `TopicNode.register`. -/
def literalSeg (s : String) : Bool := !(pyStartsWith s '+') && !(pyStartsWith s '#')

/-- The child that `register` creates under a fresh literal key `s`. -/
def freshLit (s : String) (rest : List String) (cb : Nat) : TopicNode :=
  if rest = [] then .node s none (some cb) .nil
  else (TopicNode.node s none none .nil).register rest cb

/-- Following a path of segment keys through the children dictionaries:
the node reached by descending one child per segment. -/
def TNodeMap.followPath : TNodeMap → List String → Option TopicNode
  | _, [] => none
  | m, [p] => m.find p
  | m, p :: q :: rest =>
    match m.find p with
    | none => none
    | some c => c.nodes.followPath (q :: rest)

mutual
/-- A node whose whole subtree is literal: no wildcard keys anywhere below. -/
def TopicNode.litSubtree : TopicNode → Bool
  | .node _ _ _ children => children.litChildren

/-- Well-formed literal children dictionary: every key is a literal segment,
every child's `part` equals its key, keys are distinct, and the subtrees are
again literal.  Tries built by registering only literal patterns satisfy
this. -/
def TNodeMap.litChildren : TNodeMap → Bool
  | .nil => true
  | .cons k c rest =>
    literalSeg k && (c.part == some k) && c.litSubtree &&
      !(rest.keys.contains k) && rest.litChildren
end

/-- Canonical pattern as the spec words it for claim C9: the input split on
`"/"`, every single-level-wildcard segment replaced by bare `"+"`, every
multi-level-wildcard segment replaced by bare `"#"`, literal segments
unchanged, rejoined with `"/"`. -/
def canonicalSegment (s : String) : String :=
  if pyStartsWith s '+' then "+" else if pyStartsWith s '#' then "#" else s

/-- Spec-side canonicalization of a whole pattern string (claim C9). -/
def canonicalPattern (topic : String) : String :=
  pyJoin ((pySplit topic).map canonicalSegment)

/-- `MQTTSubscription` dataclass (`mqtt_subscription.py`). -/
structure MQTTSubscription where
  topic : String
  qos : Nat
deriving DecidableEq, Repr

/-- The registration flow of the `MQTTClient.subscribe` decorator: the pattern
is registered with the resolver and the REWRITTEN topic returned by
`CallbackResolver.register` is what `subscribe_topic` stores as the
`MQTTSubscription` handed to the transport. -/
def subscribeFlow (r : CallbackResolver) (topic : String) (cb : Nat) (qos : Nat) :
    CallbackResolver × MQTTSubscription :=
  let rr := r.register topic cb
  (rr.1, ⟨rr.2, qos⟩)

end Mqroute

namespace Mqroute

/-! ### Helper lemmas -/

/-- The `real_topic` loop of `CallbackResolver.register` computes exactly the
segment-wise canonicalization. -/
theorem realTopicParts_eq_map (parts : List String) :
    realTopicParts parts = parts.map canonicalSegment := by
  induction parts with
  | nil => rfl
  | cons p rest ih => simp [realTopicParts, canonicalSegment, ih]

/-- Head of a reconnect backoff run. -/
theorem reconnectSeq_head (b : ℚ) (js : List ℚ) :
    (reconnectSeq b js).head? = some b := by
  cases js <;> rfl

/-- Backoff invariant: starting inside `[1, 60]` with jitters in `[0, 1]`, the
run stays in `[1, 60]` and is non-decreasing. -/
theorem reconnectSeq_invariant (js : List ℚ) :
    ∀ b : ℚ, 1 ≤ b → b ≤ 60 → (∀ j ∈ js, 0 ≤ j ∧ j ≤ 1) →
      List.Chain' (fun x y => x ≤ y) (reconnectSeq b js) ∧
        ∀ x ∈ reconnectSeq b js, 1 ≤ x ∧ x ≤ 60 := by
  induction js with
  | nil =>
    intro b hb1 hb60 _
    refine ⟨by simp [reconnectSeq], ?_⟩
    intro x hx
    simp [reconnectSeq] at hx
    simp [hx, hb1, hb60]
  | cons j js ih =>
    intro b hb1 hb60 hj
    have hj0 : 0 ≤ j := (hj j (by simp)).1
    have hnext1 : 1 ≤ reconnectStep b j := by
      rw [reconnectStep]
      exact le_min (by norm_num) (by nlinarith)
    have hnext60 : reconnectStep b j ≤ 60 := min_le_left _ _
    have hmono : b ≤ reconnectStep b j := by
      rw [reconnectStep]
      exact le_min hb60 (by nlinarith)
    have hrest := ih (reconnectStep b j) hnext1 hnext60
      (fun x hx => hj x (by simp [hx]))
    refine ⟨?_, ?_⟩
    · rw [reconnectSeq, List.chain'_cons']
      refine ⟨?_, hrest.1⟩
      intro y hy
      rw [reconnectSeq_head] at hy
      cases hy
      exact hmono
    · intro x hx
      rw [reconnectSeq] at hx
      rcases List.mem_cons.mp hx with h | h
      · simp [h, hb1, hb60]
      · exact hrest.2 x h

end Mqroute

/-! ### Claims -/

namespace Mqroute

/-- C2 counterexample: after registering `"a/#"`, matching the concrete topic
`"a"` yields NO match at all (the claim asserts a single match).  The node
`"a"` has the child `"#"`, so the exhausted-with-children case of
`__check_topic` reports `NoMatch` and the `"#"` child is never consulted. -/
theorem claim2_counterexample :
    ((buildResolver [("a/#", 5)]).getMatchingNodes "a").1 = [] ∧
      ¬ (((buildResolver [("a/#", 5)]).getMatchingNodes "a").1).length = 1 := by
  exact ⟨rfl, by decide⟩

/-- C2 (amended): after registering `"a/#"`, matching yields a single match
for `"a/b"` and `"a/b/c"` (a `"#"` node, once reached, is a full match
regardless of how many topic segments remain) and no match for `"x/y"` — but
no match for `"a"` itself: the code requires the topic to descend strictly
below the `"#"` node's parent. -/
theorem claim2_hash_wildcard_matching (cb : Nat) :
    ((((CallbackResolver.init.register "a/#" cb).1).getMatchingNodes "a/b").1).map
        (fun m => (m.node.callback, m.parameters, m.topic)) = [(some cb, [], some "a/b")] ∧
      ((((CallbackResolver.init.register "a/#" cb).1).getMatchingNodes "a/b/c").1).map
        (fun m => (m.node.callback, m.parameters, m.topic)) = [(some cb, [], some "a/b/c")] ∧
      (((CallbackResolver.init.register "a/#" cb).1).getMatchingNodes "x/y").1 = [] ∧
      (((CallbackResolver.init.register "a/#" cb).1).getMatchingNodes "a").1 = [] := by
  exact ⟨rfl, rfl, rfl, rfl⟩

/-- C3: the lookup cache is NOT invalidated by registration.  After a lookup
of `"x/y"` returns no match (and is memoized), registering `"x/y"` and looking
the topic up again still returns the stale empty list from the `lru_cache`,
even though a cache-free lookup on the same trie now finds the new handler. -/
theorem claim3_stale_cache_after_register :
    (CallbackResolver.init.getMatchingNodes "x/y").1 = [] ∧
      ((((CallbackResolver.init.getMatchingNodes "x/y").2).register "x/y" 5).1.getMatchingNodes
        "x/y").1 = [] ∧
      ((CallbackResolver.mk
          ((((CallbackResolver.init.getMatchingNodes "x/y").2).register "x/y" 5).1).root
          []).getMatchingNodes "x/y").1.map (fun m => m.node.callback) = [some 5] := by
  exact ⟨rfl, rfl, rfl⟩

/-- C4: `process_callbacks` has no `try/except` around the handler invocation,
so a raising handler kills the consumer loop: with two queued requests whose
first handler raises, nothing is recorded as processed, the exception escapes,
and the second request is never executed. -/
theorem claim4_handler_exception_kills_loop :
    processCallbacks
        (fun req _ => if req.cb_method = some 1 then .error "boom" else .ok ())
        [(⟨some 1, [], some "t"⟩, ⟨"t", "m"⟩), (⟨some 2, [], some "t"⟩, ⟨"t", "m"⟩)]
      = ([], some "boom") := by
  decide

/-- C5: registering `"a/+x+/c"` and looking up `"a/b/c"` yields exactly one
match for the registered handler with parameters `{x: "b"}`. -/
theorem claim5_parameter_binding (cb : Nat) :
    ((((CallbackResolver.init.register "a/+x+/c" cb).1).getMatchingNodes "a/b/c").1).map
      (fun m => (m.node.callback, m.parameters, m.topic))
      = [(some cb, [("x", "b")], some "a/b/c")] := by
  rfl

/-- C7: a request submitted through `run_callback` while the consumer loop has
not started (`ready = false`) is dropped: the runner state (in particular the
queue) is unchanged, nothing is retried, and the call returns normally. -/
theorem claim7_not_ready_request_dropped (loopSet : Bool)
    (queue : List (CallbackRequest × MQTTMessage)) (cb : CallbackRequest) (msg : MQTTMessage) :
    CallbackRunner.run_callback ⟨false, loopSet, queue⟩ cb msg = ⟨false, loopSet, queue⟩ := by
  rfl

/-- C8: the reconnect backoff run starts at the base value 1, each failed
attempt updates it by `next = min(60, previous * 2 + jitter)` with the jitter
drawn from `[0, 1]`, and over any run of consecutive failures the values are
non-decreasing and never exceed 60. -/
theorem claim8_backoff_monotone_capped (js : List ℚ) (hj : ∀ j ∈ js, 0 ≤ j ∧ j ≤ 1) :
    (reconnectSeq backoffBase js).head? = some 1 ∧
      List.Chain' (fun x y => x ≤ y) (reconnectSeq backoffBase js) ∧
      ∀ x ∈ reconnectSeq backoffBase js, x ≤ 60 := by
  have h := reconnectSeq_invariant js backoffBase (by norm_num [backoffBase])
    (by norm_num [backoffBase]) hj
  exact ⟨reconnectSeq_head _ _, h.1, fun x hx => (h.2 x hx).2⟩

/-- C8 witness: the theorem applied to the concrete jitter run `[0, 1]`. -/
theorem claim8_backoff_monotone_capped_witness :
    (reconnectSeq backoffBase [0, 1]).head? = some 1 ∧
      List.Chain' (fun x y => x ≤ y) (reconnectSeq backoffBase [0, 1]) ∧
      ∀ x ∈ reconnectSeq backoffBase [0, 1], x ≤ 60 :=
  claim8_backoff_monotone_capped [0, 1] (by norm_num)

/-- C9: `CallbackResolver.register` returns the canonicalized pattern — the
input split on `"/"`, wildcard segments normalized to bare `"+"`/`"#"`,
literal segments unchanged, rejoined with `"/"` — and that string is exactly
the topic stored in the `MQTTSubscription` handed to the transport by the
`subscribe` flow. -/
theorem claim9_register_returns_canonical (r : CallbackResolver) (topic : String) (cb : Nat)
    (qos : Nat) :
    (r.register topic cb).2 = canonicalPattern topic ∧
      (subscribeFlow r topic cb qos).2.topic = canonicalPattern topic := by
  have h : (r.register topic cb).2 = canonicalPattern topic := by
    simp [CallbackResolver.register, canonicalPattern, realTopicParts_eq_map]
  exact ⟨h, by simpa [subscribeFlow] using h⟩

/-- C10: segment classification at registration looks only at the first
character: a segment starting with `"+"` becomes the `"+"` child whose stored
parameter name is the segment with first and last characters removed, a
segment starting with `"#"` becomes the `"#"` child, anything else a literal
child (the created key is exactly `canonicalSegment`).  Consequently a bare
`"+"` stores the empty name and binds no parameter, the malformed `"+temp"`
binds the name `"tem"`, and `"#status"` behaves as the multi-level wildcard. -/
theorem claim10_first_char_classification :
    (∀ (s : String) (cb : Nat),
        (TopicNode.node none none none .nil).register [s] cb =
          TopicNode.node none none none
            (.cons (canonicalSegment s)
              (TopicNode.node (canonicalSegment s)
                (if pyStartsWith s '+' then some (pyMid s) else none) (some cb) .nil) .nil)) ∧
      (((buildResolver [("a/+", 4)]).getMatchingNodes "a/b").1).map
        (fun m => (m.node.callback, m.parameters)) = [(some 4, [])] ∧
      (((buildResolver [("a/+temp", 4)]).getMatchingNodes "a/b").1).map
        (fun m => (m.node.callback, m.parameters)) = [(some 4, [("tem", "b")])] ∧
      (((buildResolver [("a/#status", 4)]).getMatchingNodes "a/b/c").1).map
        (fun m => (m.node.callback, m.parameters)) = [(some 4, [])] := by
  refine ⟨?_, by decide, by decide, by decide⟩
  intro s cb
  by_cases hp : pyStartsWith s '+' = true
  · simp [TopicNode.register, TopicNode.nodes, TNodeMap.find, TNodeMap.append,
      canonicalSegment, hp, TopicNode.part, TopicNode.parameter, TopicNode.callback]
  · by_cases hh : pyStartsWith s '#' = true
    · simp [TopicNode.register, TopicNode.nodes, TNodeMap.find, TNodeMap.append,
        canonicalSegment, hp, hh, TopicNode.part, TopicNode.parameter, TopicNode.callback]
    · simp [TopicNode.register, TopicNode.nodes, TNodeMap.find, TNodeMap.append,
        canonicalSegment, hp, hh, TopicNode.part, TopicNode.parameter, TopicNode.callback]

end Mqroute

namespace Mqroute

/-- `register` never changes the `part` of the node it is called on. -/
theorem TopicNode.register_part (n : TopicNode) (parts : List String) (cb : Nat) :
    (n.register parts cb).part = n.part := by
  cases parts with
  | nil => rfl
  | cons p rest =>
    rw [TopicNode.register]
    cases h : n.nodes.find
        (if pyStartsWith p '+' then "+" else if pyStartsWith p '#' then "#" else p) <;>
      simp [h, TopicNode.part]

/-- Unpacking `literalSeg`. -/
theorem literalSeg_elim {s : String} (h : literalSeg s = true) :
    pyStartsWith s '+' = false ∧ pyStartsWith s '#' = false ∧ s ≠ "+" ∧ s ≠ "#" := by
  rw [literalSeg, Bool.and_eq_true, Bool.not_eq_true', Bool.not_eq_true'] at h
  refine ⟨h.1, h.2, ?_, ?_⟩
  · rintro rfl; exact absurd h.1 (by decide)
  · rintro rfl; exact absurd h.2 (by decide)

/-- `register` on a fresh literal head key appends the freshly built chain. -/
theorem register_lit_fresh {s : String} (hs : literalSeg s = true)
    (part param : Option String) (cb : Option Nat) (m : TNodeMap) (rest : List String) (h : Nat)
    (hfind : m.find s = none) :
    (TopicNode.node part param cb m).register (s :: rest) h
      = TopicNode.node part param cb (m.append s (freshLit s rest h)) := by
  obtain ⟨hp, hh, _, _⟩ := literalSeg_elim hs
  rw [TopicNode.register]
  simp only [TopicNode.nodes, hp, hh, Bool.false_eq_true, if_false, hfind]
  cases rest with
  | nil =>
    simp [freshLit, TopicNode.part, TopicNode.parameter, TopicNode.nodes, TopicNode.callback]
  | cons u rest' =>
    simp [freshLit, TopicNode.part, TopicNode.parameter, TopicNode.nodes, TopicNode.callback]

/-- `register` on a literal head key that already has a child updates that
child in place. -/
theorem register_lit_found {s : String} (hs : literalSeg s = true)
    (part param : Option String) (cb : Option Nat) (m : TNodeMap) (rest : List String) (h : Nat)
    (child : TopicNode) (hfind : m.find s = some child) :
    (TopicNode.node part param cb m).register (s :: rest) h
      = TopicNode.node part param cb
          (m.set s (if rest = [] then
              TopicNode.node child.part child.parameter (some h) child.nodes
            else child.register rest h)) := by
  obtain ⟨hp, hh, _, _⟩ := literalSeg_elim hs
  rw [TopicNode.register]
  simp only [TopicNode.nodes, hp, hh, Bool.false_eq_true, if_false, hfind]
  simp [TopicNode.part, TopicNode.parameter, TopicNode.callback, TopicNode.nodes]

/-- Registering a final `"#"` segment under a fresh key appends a `"#"` leaf
holding the handler. -/
theorem register_hash_last (part param : Option String) (cb : Option Nat) (m : TNodeMap)
    (h : Nat) (hfind : m.find "#" = none) :
    (TopicNode.node part param cb m).register ["#"] h
      = TopicNode.node part param cb (m.append "#" (.node "#" none (some h) .nil)) := by
  rw [TopicNode.register]
  have e1 : pyStartsWith "#" '+' = false := by decide
  have e2 : pyStartsWith "#" '#' = true := by decide
  simp only [TopicNode.nodes, e1, e2, Bool.false_eq_true, if_false, if_true, hfind]
  simp [TopicNode.part, TopicNode.parameter, TopicNode.nodes, TopicNode.callback]

/-- A `"#"` node is a full match whatever topic segments remain. -/
theorem match_hash (nd : TopicNode) (parts : List String) (params : List (String × String))
    (h : nd.part = some "#") (hp : parts ≠ []) :
    nd.getMatchingNodes parts params = [⟨nd, params, none⟩] := by
  cases nd with
  | node part param cb ch =>
    rw [TopicNode.part] at h
    subst h
    cases parts with
    | nil => exact absurd rfl hp
    | cons p0 rest =>
      simp [TopicNode.getMatchingNodes, TopicNode.checkTopic, TopicNode.part, updateParams]

/-- A literal node whose segment equals the topic head and with topic left to
consume fans out to its children on the tail. -/
theorem match_lit_step {s : String} (hs : literalSeg s = true) (nd : TopicNode)
    (rest : List String) (params : List (String × String))
    (h : nd.part = some s) (hr : rest ≠ []) :
    nd.getMatchingNodes (s :: rest) params = nd.nodes.getMatchingList rest params := by
  obtain ⟨hp, hh, hplus, hhash⟩ := literalSeg_elim hs
  cases nd with
  | node part param cb ch =>
    rw [TopicNode.part] at h
    subst h
    simp [TopicNode.getMatchingNodes, TopicNode.checkTopic, TopicNode.part, TopicNode.nodes,
      updateParams, hplus, hhash, Ne.symm hplus, Ne.symm hhash, hr]

/-- A literal node consuming the last topic segment: a full match when it is
childless, no match otherwise. -/
theorem match_lit_last {s : String} (hs : literalSeg s = true) (nd : TopicNode)
    (params : List (String × String)) (h : nd.part = some s) :
    nd.getMatchingNodes [s] params
      = if nd.nodes.isEmpty then [⟨nd, params, none⟩] else [] := by
  obtain ⟨hp, hh, hplus, hhash⟩ := literalSeg_elim hs
  cases nd with
  | node part param cb ch =>
    rw [TopicNode.part] at h
    subst h
    cases ch with
    | nil =>
      simp [TopicNode.getMatchingNodes, TopicNode.checkTopic, TopicNode.part, TopicNode.nodes,
        TNodeMap.isEmpty, updateParams, hplus, hhash, Ne.symm hplus, Ne.symm hhash]
    | cons k c m =>
      simp [TopicNode.getMatchingNodes, TopicNode.checkTopic, TopicNode.part, TopicNode.nodes,
        TNodeMap.isEmpty, updateParams, hplus, hhash, Ne.symm hplus, Ne.symm hhash]

/-- A literal node whose segment disagrees with the topic head matches
nothing. -/
theorem match_lit_miss {s p0 : String} (hs : literalSeg s = true) (hne : s ≠ p0)
    (nd : TopicNode) (rest : List String) (params : List (String × String))
    (h : nd.part = some s) :
    nd.getMatchingNodes (p0 :: rest) params = [] := by
  obtain ⟨hp, hh, hplus, hhash⟩ := literalSeg_elim hs
  cases nd with
  | node part param cb ch =>
    rw [TopicNode.part] at h
    subst h
    simp [TopicNode.getMatchingNodes, TopicNode.checkTopic, TopicNode.part, TopicNode.nodes,
      updateParams, hplus, hhash, Ne.symm hplus, Ne.symm hhash, hne]

/-- The root node fans out to all children with the topic unchanged. -/
theorem match_root (nd : TopicNode) (parts : List String) (params : List (String × String))
    (h : nd.part = none) :
    nd.getMatchingNodes parts params = nd.nodes.getMatchingList parts params := by
  cases nd with
  | node part param cb ch =>
    rw [TopicNode.part] at h
    subst h
    simp [TopicNode.getMatchingNodes, TopicNode.nodes, updateParams]

/-- Matching a freshly registered literal chain for exactly its own pattern
returns the registered handler with the incoming parameters untouched. -/
theorem chain_matches (suf : List String) :
    ∀ (s : String) (params : List (String × String)) (cb : Nat),
      literalSeg s = true → (∀ u ∈ suf, literalSeg u = true) →
      ((freshLit s suf cb).getMatchingNodes (s :: suf) params).map
        (fun m => (m.node.callback, m.parameters)) = [(some cb, params)] := by
  induction suf with
  | nil =>
    intro s params cb hs _
    rw [freshLit, if_pos rfl, match_lit_last hs _ _ (by rw [TopicNode.part])]
    simp [TopicNode.nodes, TNodeMap.isEmpty, TopicNode.callback]
  | cons u suf' ih =>
    intro s params cb hs hsuf
    have hu : literalSeg u = true := hsuf u (by simp)
    rw [freshLit, if_neg (by simp)]
    rw [register_lit_fresh hu _ _ _ _ _ _ (by simp [TopicNode.nodes, TNodeMap.find])]
    rw [match_lit_step hs _ _ _ (by rw [TopicNode.part]) (by simp)]
    simp only [TopicNode.nodes, TNodeMap.append, TNodeMap.getMatchingList]
    rw [List.append_nil]
    exact ih u params cb hu (fun x hx => hsuf x (by simp [hx]))

/-- Registering `pre ++ ["#"]` and then the literal pattern `pre ++ suf` into
a childless node and matching the topic `pre ++ suf` yields exactly two
matches: the `"#"` handler (registered first), then the exact handler, both
with the incoming parameters untouched. -/
theorem hash_and_exact (pre : List String) :
    ∀ (suf : List String) (n : TopicNode) (params : List (String × String)) (h1 h2 : Nat),
      n.nodes = .nil → suf ≠ [] → (∀ x ∈ pre ++ suf, literalSeg x = true) →
      (TNodeMap.getMatchingList (((n.register (pre ++ ["#"]) h2).register (pre ++ suf) h1).nodes)
          (pre ++ suf) params).map (fun m => (m.node.callback, m.parameters))
        = [(some h2, params), (some h1, params)] := by
  induction pre with
  | nil =>
    intro suf n params h1 h2 hnil hsuf hlit
    obtain ⟨s, suf', rfl⟩ : ∃ s suf', suf = s :: suf' := by
      cases suf with
      | nil => exact absurd rfl hsuf
      | cons a b => exact ⟨a, b, rfl⟩
    have hs : literalSeg s = true := hlit s (by simp)
    obtain ⟨hps, hhs, hplus, hhash⟩ := literalSeg_elim hs
    cases n with
    | node a b c m =>
      simp only [TopicNode.nodes] at hnil
      subst hnil
      rw [List.nil_append, List.nil_append]
      rw [register_hash_last _ _ _ _ _ (by rw [TNodeMap.find])]
      rw [TNodeMap.append]
      rw [register_lit_fresh hs _ _ _ _ _ _
        (by simp [TopicNode.nodes, TNodeMap.find, Ne.symm hhash])]
      simp only [TopicNode.nodes, TNodeMap.append, TNodeMap.getMatchingList]
      rw [match_hash _ _ _ (by rw [TopicNode.part]) (by simp)]
      rw [List.append_nil, List.map_append]
      rw [chain_matches suf' s params h1 hs (fun x hx => hlit x (by simp [hx]))]
      simp [TopicNode.callback]
  | cons p pre' ih =>
    intro suf n params h1 h2 hnil hsuf hlit
    have hp : literalSeg p = true := hlit p (by simp)
    cases n with
    | node a b c m =>
      simp only [TopicNode.nodes] at hnil
      subst hnil
      rw [List.cons_append, List.cons_append]
      rw [register_lit_fresh hp _ _ _ _ _ _ (by simp [TopicNode.nodes, TNodeMap.find])]
      simp only [TopicNode.nodes, TNodeMap.append]
      rw [register_lit_found hp a b c (TNodeMap.cons p (freshLit p (pre' ++ ["#"]) h2) .nil)
        (pre' ++ suf) h1 (freshLit p (pre' ++ ["#"]) h2)
        (by simp [TopicNode.nodes, TNodeMap.find])]
      rw [if_neg (by simp [hsuf])]
      simp only [TopicNode.nodes, TNodeMap.set, if_pos rfl]
      simp only [TNodeMap.getMatchingList, List.append_nil]
      have hfl : freshLit p (pre' ++ ["#"]) h2
          = (TopicNode.node p none none .nil).register (pre' ++ ["#"]) h2 := by
        rw [freshLit, if_neg (by simp)]
      have hpart : ((freshLit p (pre' ++ ["#"]) h2).register (pre' ++ suf) h1).part = some p := by
        rw [hfl, TopicNode.register_part, TopicNode.register_part, TopicNode.part]
      rw [match_lit_step hp _ _ _ hpart (by simp [hsuf])]
      rw [hfl]
      exact ih suf (TopicNode.node p none none .nil) params h1 h2 (by simp [TopicNode.nodes]) hsuf
        (fun x hx => hlit x (by rcases List.mem_append.mp hx with h | h <;> simp [h]))

end Mqroute

namespace Mqroute

/-- C6 (amended): for a topic that matches both a registered exact (literal)
pattern and an overlapping registered `"#"` pattern whose pre-`"#"` prefix is
a strict prefix of the topic, lookup returns both handlers, and the length of
the match list equals the number of registered matching patterns (two) — the
`"#"` handler first since it was registered first. -/
theorem claim6_exact_and_hash_both_match (pre suf : List String) (h1 h2 : Nat)
    (hsuf : suf ≠ []) (hlit : ∀ x ∈ pre ++ suf, literalSeg x = true) :
    ((((TopicNode.node none none none .nil).register (pre ++ ["#"]) h2).register
        (pre ++ suf) h1).getMatchingNodes (pre ++ suf) []).map
        (fun m => (m.node.callback, m.parameters))
      = [(some h2, []), (some h1, [])] ∧
    ((((TopicNode.node none none none .nil).register (pre ++ ["#"]) h2).register
        (pre ++ suf) h1).getMatchingNodes (pre ++ suf) []).length = 2 := by
  have hpart : (((TopicNode.node none none none .nil).register (pre ++ ["#"]) h2).register
      (pre ++ suf) h1).part = none := by
    rw [TopicNode.register_part, TopicNode.register_part, TopicNode.part]
  have hmap := hash_and_exact pre suf (TopicNode.node none none none .nil) [] h1 h2
    (by simp [TopicNode.nodes]) hsuf hlit
  rw [match_root _ _ _ hpart]
  refine ⟨hmap, ?_⟩
  have := congrArg List.length hmap
  simpa using this

/-- C6 witness: patterns `"a/#"` then `"a/b"`, topic `"a/b"`. -/
theorem claim6_exact_and_hash_both_match_witness :
    ((((TopicNode.node none none none .nil).register (["a"] ++ ["#"]) 2).register
        (["a"] ++ ["b"]) 1).getMatchingNodes (["a"] ++ ["b"]) []).map
        (fun m => (m.node.callback, m.parameters))
      = [(some 2, []), (some 1, [])] ∧
    ((((TopicNode.node none none none .nil).register (["a"] ++ ["#"]) 2).register
        (["a"] ++ ["b"]) 1).getMatchingNodes (["a"] ++ ["b"]) []).length = 2 :=
  claim6_exact_and_hash_both_match ["a"] ["b"] 1 2 (by decide) (by decide)

/-- C6 counterexample: with `"a"` (exact) and `"a/#"` (overlapping `"#"`
pattern, which the spec says matches `"a"`) registered, looking up `"a"`
returns NEITHER handler: the match list is empty, not of length two. -/
theorem claim6_counterexample :
    ((buildResolver [("a", 1), ("a/#", 2)]).getMatchingNodes "a").1 = [] ∧
      ¬ (((buildResolver [("a", 1), ("a/#", 2)]).getMatchingNodes "a").1.length = 2) := by
  exact ⟨rfl, by decide⟩

end Mqroute

namespace Mqroute

/-- `pySplitGo` never returns an empty list. -/
theorem pySplitGo_ne_nil (l : List Char) : ∀ acc, pySplitGo l acc ≠ [] := by
  induction l with
  | nil => intro acc; simp [pySplitGo]
  | cons c cs ih =>
    intro acc
    rw [pySplitGo]
    by_cases h : c = '/'
    · simp [h]
    · simp [h, ih]

/-- Splitting a topic string always yields at least one segment. -/
theorem pySplit_ne_nil (s : String) : pySplit s ≠ [] := pySplitGo_ne_nil _ _

theorem TNodeMap.keys_append : ∀ (m : TNodeMap) (k : String) (v : TopicNode),
    (m.append k v).keys = m.keys ++ [k]
  | .nil, k, v => by simp [TNodeMap.append, TNodeMap.keys]
  | .cons k' c rest, k, v => by
    simp [TNodeMap.append, TNodeMap.keys, TNodeMap.keys_append rest k v]

/-- A key that is absent (`find = none`) is not among the keys, and
conversely. -/
theorem TNodeMap.find_eq_none_iff : ∀ (m : TNodeMap) (k : String),
    m.find k = none ↔ m.keys.contains k = false
  | .nil, k => by simp [TNodeMap.find, TNodeMap.keys]
  | .cons k' c rest, k => by
    by_cases h : k' = k
    · subst h
      simp [TNodeMap.find, TNodeMap.keys]
    · simp [TNodeMap.find, TNodeMap.keys, h, TNodeMap.find_eq_none_iff rest k]
      exact fun _ e => h e.symm

theorem TNodeMap.find_append_self : ∀ (m : TNodeMap) (k : String) (v : TopicNode),
    m.find k = none → (m.append k v).find k = some v
  | .nil, k, v, _ => by simp [TNodeMap.append, TNodeMap.find]
  | .cons k' c rest, k, v, h => by
    rw [TNodeMap.find] at h
    by_cases hk : k' = k
    · simp [hk] at h
    · rw [if_neg hk] at h
      simp [TNodeMap.append, TNodeMap.find, hk, TNodeMap.find_append_self rest k v h]

theorem TNodeMap.find_append_ne : ∀ (m : TNodeMap) (k k' : String) (v : TopicNode),
    k' ≠ k → (m.append k v).find k' = m.find k'
  | .nil, k, k', v, h => by simp [TNodeMap.append, TNodeMap.find, Ne.symm h]
  | .cons k0 c rest, k, k', v, h => by
    by_cases hk : k0 = k'
    · simp [TNodeMap.append, TNodeMap.find, hk]
    · simp [TNodeMap.append, TNodeMap.find, hk, TNodeMap.find_append_ne rest k k' v h]

theorem TNodeMap.find_set_self : ∀ (m : TNodeMap) (k : String) (v c : TopicNode),
    m.find k = some c → (m.set k v).find k = some v
  | .nil, k, v, c, h => by simp [TNodeMap.find] at h
  | .cons k0 c0 rest, k, v, c, h => by
    by_cases hk : k0 = k
    · simp [TNodeMap.set, TNodeMap.find, hk]
    · rw [TNodeMap.find, if_neg hk] at h
      simp [TNodeMap.set, TNodeMap.find, hk, TNodeMap.find_set_self rest k v c h]

theorem TNodeMap.find_set_ne : ∀ (m : TNodeMap) (k k' : String) (v : TopicNode),
    k' ≠ k → (m.set k v).find k' = m.find k'
  | .nil, k, k', v, _ => by simp [TNodeMap.set]
  | .cons k0 c0 rest, k, k', v, h => by
    by_cases hk : k0 = k
    · subst hk
      simp [TNodeMap.set, TNodeMap.find, Ne.symm h]
    · simp [TNodeMap.set, TNodeMap.find, hk, TNodeMap.find_set_ne rest k k' v h]

/-- No node is reachable through an empty children dictionary. -/
theorem TNodeMap.followPath_nil (parts : List String) :
    TNodeMap.nil.followPath parts = none := by
  cases parts with
  | nil => rfl
  | cons p rest => cases rest <;> simp [TNodeMap.followPath, TNodeMap.find]

/-- Unfolding `followPath` on a nonempty path. -/
theorem TNodeMap.followPath_cons (m : TNodeMap) (p : String) (rest : List String) :
    m.followPath (p :: rest) =
      match m.find p with
      | none => none
      | some c => if rest = [] then some c else c.nodes.followPath rest := by
  cases rest with
  | nil =>
    rw [TNodeMap.followPath]
    cases m.find p <;> simp
  | cons q rest' =>
    rw [TNodeMap.followPath]
    cases m.find p <;> simp

theorem TNodeMap.followPath_cons_some {m : TNodeMap} {p : String} {rest : List String}
    {c : TopicNode} (hfind : m.find p = some c) :
    m.followPath (p :: rest) = if rest = [] then some c else c.nodes.followPath rest := by
  rw [TNodeMap.followPath_cons, hfind]

theorem TNodeMap.followPath_cons_none {m : TNodeMap} {p : String} {rest : List String}
    (hfind : m.find p = none) :
    m.followPath (p :: rest) = none := by
  rw [TNodeMap.followPath_cons, hfind]

end Mqroute

namespace Mqroute

theorem litChildren_elim {k : String} {c : TopicNode} {rest : TNodeMap}
    (h : (TNodeMap.cons k c rest).litChildren = true) :
    literalSeg k = true ∧ c.part = some k ∧ c.litSubtree = true ∧
      rest.keys.contains k = false ∧ rest.litChildren = true := by
  rw [TNodeMap.litChildren] at h
  simp only [Bool.and_eq_true, Bool.not_eq_true', beq_iff_eq] at h
  tauto

theorem litChildren_intro {k : String} {c : TopicNode} {rest : TNodeMap}
    (h1 : literalSeg k = true) (h2 : c.part = some k) (h3 : c.litSubtree = true)
    (h4 : rest.keys.contains k = false) (h5 : rest.litChildren = true) :
    (TNodeMap.cons k c rest).litChildren = true := by
  rw [TNodeMap.litChildren]
  simp only [Bool.and_eq_true, Bool.not_eq_true', beq_iff_eq]
  tauto

theorem TopicNode.litSubtree_node (a b : Option String) (c : Option Nat) (m : TNodeMap) :
    (TopicNode.node a b c m).litSubtree = m.litChildren := by
  rw [TopicNode.litSubtree]

theorem TopicNode.litSubtree_nodes {n : TopicNode} (h : n.litSubtree = true) :
    n.nodes.litChildren = true := by
  cases n with
  | node a b c m =>
    rw [TopicNode.litSubtree_node] at h
    simpa [TopicNode.nodes] using h

theorem TNodeMap.keys_set : ∀ (m : TNodeMap) (k : String) (v : TopicNode),
    (m.set k v).keys = m.keys
  | .nil, k, v => by simp [TNodeMap.set]
  | .cons k0 c rest, k, v => by
    by_cases hk : k0 = k
    · simp [TNodeMap.set, TNodeMap.keys, hk]
    · simp [TNodeMap.set, TNodeMap.keys, hk, TNodeMap.keys_set rest k v]

theorem append_preserve_lit : ∀ (m : TNodeMap) (p : String) (v : TopicNode),
    m.litChildren = true → m.find p = none → literalSeg p = true →
    v.part = some p → v.litSubtree = true → (m.append p v).litChildren = true
  | .nil, p, v, _, _, hp, hvp, hvl => by
    rw [TNodeMap.append]
    exact litChildren_intro hp hvp hvl (by simp [TNodeMap.keys]) (by rw [TNodeMap.litChildren])
  | .cons k c rest, p, v, hm, hf, hp, hvp, hvl => by
    obtain ⟨h1, h2, h3, h4, h5⟩ := litChildren_elim hm
    rw [TNodeMap.find] at hf
    by_cases hk : k = p
    · simp [hk] at hf
    · rw [if_neg hk] at hf
      rw [TNodeMap.append]
      refine litChildren_intro h1 h2 h3 ?_ (append_preserve_lit rest p v h5 hf hp hvp hvl)
      rw [TNodeMap.keys_append]
      simp at h4 ⊢
      exact ⟨h4, hk⟩

theorem set_preserve_lit : ∀ (m : TNodeMap) (k : String) (v c : TopicNode),
    m.litChildren = true → m.find k = some c →
    v.part = some k → v.litSubtree = true → (m.set k v).litChildren = true
  | .nil, k, v, c, _, hf, _, _ => by simp [TNodeMap.find] at hf
  | .cons k0 c0 rest, k, v, c, hm, hf, hvp, hvl => by
    obtain ⟨h1, h2, h3, h4, h5⟩ := litChildren_elim hm
    by_cases hk : k0 = k
    · subst hk
      rw [TNodeMap.set, if_pos rfl]
      exact litChildren_intro h1 hvp hvl h4 h5
    · rw [TNodeMap.find, if_neg hk] at hf
      rw [TNodeMap.set, if_neg hk]
      refine litChildren_intro h1 h2 h3 ?_ (set_preserve_lit rest k v c h5 hf hvp hvl)
      rw [TNodeMap.keys_set]
      exact h4

/-- In a literal well-formed children dictionary, a found child's `part`
equals the key and its subtree is literal. -/
theorem find_lit : ∀ (m : TNodeMap) (p : String) (child : TopicNode),
    m.litChildren = true → m.find p = some child →
    child.part = some p ∧ child.litSubtree = true
  | .nil, p, child, _, hf => by simp [TNodeMap.find] at hf
  | .cons k0 c0 rest, p, child, hm, hf => by
    obtain ⟨g1, g2, g3, g4, g5⟩ := litChildren_elim hm
    by_cases hk : k0 = p
    · subst hk
      rw [TNodeMap.find, if_pos rfl] at hf
      cases hf
      exact ⟨g2, g3⟩
    · rw [TNodeMap.find, if_neg hk] at hf
      exact find_lit rest p child g5 hf

/-- Registering a fully literal pattern preserves literal well-formedness of
the trie. -/
theorem register_preserves_lit (parts : List String) :
    ∀ (n : TopicNode) (cb : Nat), (∀ s ∈ parts, literalSeg s = true) →
      n.litSubtree = true → (n.register parts cb).litSubtree = true := by
  induction parts with
  | nil => intro n cb _ hn; exact hn
  | cons p rest ih =>
    intro n cb hlit hn
    have hp : literalSeg p = true := hlit p (by simp)
    cases n with
    | node a b c m =>
      rw [TopicNode.litSubtree_node] at hn
      cases hf : m.find p with
      | some child =>
        rw [register_lit_found hp a b c m rest cb child (by simp [TopicNode.nodes, hf])]
        rw [TopicNode.litSubtree_node]
        obtain ⟨hcp, hcl⟩ := find_lit m p child hn hf
        by_cases hr : rest = []
        · subst hr
          rw [if_pos rfl]
          refine set_preserve_lit m p _ child hn hf ?_ ?_
          · simpa [TopicNode.part] using hcp
          · rw [TopicNode.litSubtree_node]
            exact TopicNode.litSubtree_nodes hcl
        · rw [if_neg hr]
          refine set_preserve_lit m p _ child hn hf ?_ ?_
          · rw [TopicNode.register_part]
            exact hcp
          · exact ih child cb (fun s hs => hlit s (by simp [hs])) hcl
      | none =>
        rw [register_lit_fresh hp a b c m rest cb (by simp [TopicNode.nodes, hf])]
        rw [TopicNode.litSubtree_node]
        refine append_preserve_lit m p _ hn hf hp ?_ ?_
        · rw [freshLit]
          by_cases hr : rest = []
          · simp [hr, TopicNode.part]
          · rw [if_neg hr, TopicNode.register_part, TopicNode.part]
        · rw [freshLit]
          by_cases hr : rest = []
          · simp [hr, TopicNode.litSubtree_node, TNodeMap.litChildren]
          · rw [if_neg hr]
            exact ih _ cb (fun s hs => hlit s (by simp [hs]))
              (by rw [TopicNode.litSubtree_node, TNodeMap.litChildren])

end Mqroute

namespace Mqroute

/-- Registering a literal pattern along a path not yet present creates the
whole path; its end node carries the new callback and has no children. -/
theorem register_follow_fresh (parts : List String) :
    ∀ (n : TopicNode) (cb : Nat), parts ≠ [] → (∀ s ∈ parts, literalSeg s = true) →
      n.nodes.followPath parts = none →
      ∃ nd, (n.register parts cb).nodes.followPath parts = some nd ∧
        nd.callback = some cb ∧ nd.nodes = .nil := by
  induction parts with
  | nil => intro n cb hne _ _; exact absurd rfl hne
  | cons p rest ih =>
    intro n cb _ hlit hf
    have hp : literalSeg p = true := hlit p (by simp)
    cases n with
    | node a b c m =>
      rw [TopicNode.nodes] at hf
      cases hfind : m.find p with
      | some child =>
        rw [TNodeMap.followPath_cons_some hfind] at hf
        by_cases hr : rest = []
        · simp [hr] at hf
        · rw [if_neg hr] at hf
          rw [register_lit_found hp a b c m rest cb child (by simp [TopicNode.nodes, hfind])]
          rw [if_neg hr]
          obtain ⟨nd, hnd, hcb, hnil⟩ := ih child cb hr
            (fun s hs => hlit s (by simp [hs])) hf
          refine ⟨nd, ?_, hcb, hnil⟩
          rw [TopicNode.nodes,
            TNodeMap.followPath_cons_some (TNodeMap.find_set_self m p _ child hfind),
            if_neg hr]
          exact hnd
      | none =>
        rw [register_lit_fresh hp a b c m rest cb (by simp [TopicNode.nodes, hfind])]
        by_cases hr : rest = []
        · subst hr
          refine ⟨TopicNode.node p none (some cb) .nil, ?_, rfl, rfl⟩
          rw [TopicNode.nodes,
            TNodeMap.followPath_cons_some (TNodeMap.find_append_self m p _ hfind), if_pos rfl]
          rw [freshLit, if_pos rfl]
        · obtain ⟨nd, hnd, hcb, hnil⟩ := ih (TopicNode.node p none none .nil) cb hr
            (fun s hs => hlit s (by simp [hs]))
            (by rw [TopicNode.nodes, TNodeMap.followPath_nil])
          refine ⟨nd, ?_, hcb, hnil⟩
          rw [TopicNode.nodes,
            TNodeMap.followPath_cons_some (TNodeMap.find_append_self m p _ hfind), if_neg hr]
          rw [freshLit, if_neg hr]
          exact hnd

/-- Registering a literal pattern that the path `T` is not a prefix of leaves
the node reached by `T` (and hence its callback and children) unchanged. -/
theorem register_follow_preserve (parts : List String) :
    ∀ (T : List String) (n : TopicNode) (cb : Nat),
      (∀ s ∈ parts, literalSeg s = true) → parts ≠ [] → T ≠ [] → ¬ (T <+: parts) →
      (n.register parts cb).nodes.followPath T = n.nodes.followPath T := by
  induction parts with
  | nil => intro T n cb _ hne _ _; exact absurd rfl hne
  | cons p rest ih =>
    intro T n cb hlit _ hT hpre
    have hp : literalSeg p = true := hlit p (by simp)
    obtain ⟨t, T', rfl⟩ : ∃ t T', T = t :: T' := by
      cases T with
      | nil => exact absurd rfl hT
      | cons x y => exact ⟨x, y, rfl⟩
    cases n with
    | node a b c m =>
      by_cases ht : t = p
      · subst ht
        have hT' : T' ≠ [] := by
          rintro rfl
          exact hpre ⟨rest, rfl⟩
        have hpre' : ¬ (T' <+: rest) := by
          intro ⟨u, hu⟩
          exact hpre ⟨u, by simp [hu]⟩
        cases hfind : m.find t with
        | some child =>
          rw [register_lit_found hp a b c m rest cb child (by simp [TopicNode.nodes, hfind])]
          rw [TopicNode.nodes, TopicNode.nodes,
            TNodeMap.followPath_cons_some (TNodeMap.find_set_self m t _ child hfind),
            TNodeMap.followPath_cons_some hfind, if_neg hT', if_neg hT']
          by_cases hr : rest = []
          · rw [if_pos hr, TopicNode.nodes]
          · rw [if_neg hr]
            exact ih T' child cb (fun s hs => hlit s (by simp [hs])) hr hT' hpre'
        | none =>
          rw [register_lit_fresh hp a b c m rest cb (by simp [TopicNode.nodes, hfind])]
          rw [TopicNode.nodes, TopicNode.nodes,
            TNodeMap.followPath_cons_some (TNodeMap.find_append_self m t _ hfind),
            TNodeMap.followPath_cons_none hfind, if_neg hT']
          by_cases hr : rest = []
          · rw [freshLit, if_pos hr, TopicNode.nodes, TNodeMap.followPath_nil]
          · rw [freshLit, if_neg hr]
            rw [ih T' (TopicNode.node t none none .nil) cb
              (fun s hs => hlit s (by simp [hs])) hr hT' hpre']
            rw [TopicNode.nodes, TNodeMap.followPath_nil]
      · cases hfind : m.find p with
        | some child =>
          rw [register_lit_found hp a b c m rest cb child (by simp [TopicNode.nodes, hfind])]
          rw [TopicNode.nodes, TopicNode.nodes, TNodeMap.followPath_cons,
            TNodeMap.followPath_cons, TNodeMap.find_set_ne m p t _ ht]
        | none =>
          rw [register_lit_fresh hp a b c m rest cb (by simp [TopicNode.nodes, hfind])]
          rw [TopicNode.nodes, TopicNode.nodes, TNodeMap.followPath_cons,
            TNodeMap.followPath_cons, TNodeMap.find_append_ne m p t _ ht]

end Mqroute

namespace Mqroute

theorem TNodeMap.followPath_congr_find {m m' : TNodeMap} {p : String} {rest : List String}
    (h : m.find p = m'.find p) : m.followPath (p :: rest) = m'.followPath (p :: rest) := by
  rw [TNodeMap.followPath_cons, TNodeMap.followPath_cons, h]

/-- Matching in a literal well-formed trie is exactly path following: the
topic's own node is the unique candidate, and it is a match exactly when it is
childless. -/
theorem lit_lookup : ∀ (parts : List String) (m : TNodeMap) (params : List (String × String)),
    parts ≠ [] → m.litChildren = true →
    m.getMatchingList parts params =
      (match m.followPath parts with
       | some nd => if nd.nodes.isEmpty = true then [⟨nd, params, none⟩] else []
       | none => [])
  | [], _, _, hp, _ => absurd rfl hp
  | p :: rest, .nil, params, _, _ => by
    rw [TNodeMap.getMatchingList,
      TNodeMap.followPath_cons_none (show TNodeMap.nil.find p = none by rw [TNodeMap.find])]
  | p :: rest, .cons k c m', params, _, hm => by
    obtain ⟨h1, h2, h3, h4, h5⟩ := litChildren_elim hm
    have hm'f : m'.find p = none ∨ k ≠ p := by
      by_cases hk : k = p
      · subst hk
        exact Or.inl ((TNodeMap.find_eq_none_iff m' k).mpr h4)
      · exact Or.inr hk
    rw [TNodeMap.getMatchingList]
    by_cases hk : k = p
    · subst hk
      have hfm' : m'.find k = none := (TNodeMap.find_eq_none_iff m' k).mpr h4
      have hfcons : (TNodeMap.cons k c m').find k = some c := by
        rw [TNodeMap.find, if_pos rfl]
      rw [lit_lookup (k :: rest) m' params (by simp) h5,
        TNodeMap.followPath_cons_none hfm']
      rw [List.append_nil]
      by_cases hr : rest = []
      · subst hr
        rw [match_lit_last h1 c params h2]
        rw [TNodeMap.followPath_cons_some hfcons, if_pos rfl]
      · rw [match_lit_step h1 c rest params h2 hr]
        rw [lit_lookup rest c.nodes params hr (TopicNode.litSubtree_nodes h3)]
        rw [TNodeMap.followPath_cons_some hfcons, if_neg hr]
    · rw [match_lit_miss h1 hk c rest params h2, List.nil_append]
      rw [lit_lookup (p :: rest) m' params (by simp) h5]
      rw [TNodeMap.followPath_congr_find
        (show (TNodeMap.cons k c m').find p = m'.find p by rw [TNodeMap.find, if_neg hk])]
termination_by parts m => (parts.length, sizeOf m)

end Mqroute

namespace Mqroute

/-- Folding `CallbackResolver.register` never touches the cache. -/
theorem foldl_register_cache (ps : List (String × Nat)) :
    ∀ (r : CallbackResolver),
      (ps.foldl (fun r pc => (r.register pc.1 pc.2).1) r).cache = r.cache := by
  induction ps with
  | nil => intro r; rfl
  | cons pc ps ih => intro r; rw [List.foldl_cons, ih]; rfl

/-- The root of a resolver after a sequence of registrations is the fold of
the trie-level registrations. -/
theorem foldl_register_root (ps : List (String × Nat)) :
    ∀ (r : CallbackResolver),
      (ps.foldl (fun r pc => (r.register pc.1 pc.2).1) r).root
        = ps.foldl (fun t pc => t.register (pySplit pc.1) pc.2) r.root := by
  induction ps with
  | nil => intro r; rfl
  | cons pc ps ih => intro r; rw [List.foldl_cons, List.foldl_cons, ih]; rfl

theorem foldl_trie_part (ps : List (String × Nat)) :
    ∀ (t : TopicNode),
      (ps.foldl (fun t pc => t.register (pySplit pc.1) pc.2) t).part = t.part := by
  induction ps with
  | nil => intro t; rfl
  | cons pc ps ih =>
    intro t
    rw [List.foldl_cons, ih, TopicNode.register_part]

theorem foldl_trie_lit (ps : List (String × Nat)) :
    ∀ (t : TopicNode),
      (∀ pc ∈ ps, ∀ s ∈ pySplit pc.1, literalSeg s = true) → t.litSubtree = true →
      (ps.foldl (fun t pc => t.register (pySplit pc.1) pc.2) t).litSubtree = true := by
  induction ps with
  | nil => intro t _ ht; exact ht
  | cons pc ps ih =>
    intro t hlit ht
    rw [List.foldl_cons]
    exact ih _ (fun x hx => hlit x (by simp [hx]))
      (register_preserves_lit _ _ _ (hlit pc (by simp)) ht)

theorem foldl_trie_follow (ps : List (String × Nat)) (TP : List String) :
    ∀ (t : TopicNode),
      (∀ pc ∈ ps, ∀ s ∈ pySplit pc.1, literalSeg s = true) →
      (∀ pc ∈ ps, ¬ (TP <+: pySplit pc.1)) → TP ≠ [] →
      (ps.foldl (fun t pc => t.register (pySplit pc.1) pc.2) t).nodes.followPath TP
        = t.nodes.followPath TP := by
  induction ps with
  | nil => intro t _ _ _; rfl
  | cons pc ps ih =>
    intro t hlit hpre hTP
    rw [List.foldl_cons]
    rw [ih _ (fun x hx => hlit x (by simp [hx])) (fun x hx => hpre x (by simp [hx])) hTP]
    exact register_follow_preserve (pySplit pc.1) TP t pc.2 (hlit pc (by simp))
      (pySplit_ne_nil _) hTP (hpre pc (by simp))

end Mqroute

namespace Mqroute

/-- C1 (amended): in a resolver where only literal (wildcard-free) patterns
are registered, all with distinct segment lists, looking up a concrete topic
equal to a registered pattern `T` returns exactly the handler registered for
`T` and no others, with no extracted parameters — provided no other registered
pattern strictly extends `T` (a registered strict prefix of `T` is fine). -/
theorem claim1_amended (ps : List (String × Nat)) (T : String) (h : Nat)
    (hlit : ∀ pc ∈ ps, ∀ s ∈ pySplit pc.1, literalSeg s = true)
    (hmem : (T, h) ∈ ps)
    (hnodup : (ps.map (fun pc => pySplit pc.1)).Nodup)
    (hnoext : ∀ pc ∈ ps, pySplit T <+: pySplit pc.1 → pySplit T = pySplit pc.1) :
    ((buildResolver ps).getMatchingNodes T).1.map
      (fun m => (m.node.callback, m.parameters, m.topic)) = [(some h, [], some T)] := by
  obtain ⟨l₁, l₂, rfl⟩ := List.append_of_mem hmem
  have hmapnd := hnodup
  rw [List.map_append, List.map_cons, List.nodup_append] at hmapnd
  obtain ⟨hnd₁, hnd₂, hdisj⟩ := hmapnd
  have hne₁ : ∀ pc ∈ l₁, pySplit pc.1 ≠ pySplit T := by
    intro pc hpc he
    exact absurd (by simp : pySplit T ∈ pySplit T :: l₂.map (fun pc => pySplit pc.1))
      (by simpa [he] using hdisj (List.mem_map_of_mem _ hpc))
  have hne₂ : ∀ pc ∈ l₂, pySplit pc.1 ≠ pySplit T := by
    intro pc hpc he
    rw [List.nodup_cons] at hnd₂
    exact hnd₂.1 (he ▸ List.mem_map_of_mem _ hpc)
  have hpre₁ : ∀ pc ∈ l₁, ¬ (pySplit T <+: pySplit pc.1) := by
    intro pc hpc hp
    exact hne₁ pc hpc
      ((hnoext pc (by simp [hpc]) hp).symm)
  have hpre₂ : ∀ pc ∈ l₂, ¬ (pySplit T <+: pySplit pc.1) := by
    intro pc hpc hp
    exact hne₂ pc hpc
      ((hnoext pc (by simp [hpc]) hp).symm)
  have hlit₁ : ∀ pc ∈ l₁, ∀ s ∈ pySplit pc.1, literalSeg s = true :=
    fun pc hpc => hlit pc (by simp [hpc])
  have hlit₂ : ∀ pc ∈ l₂, ∀ s ∈ pySplit pc.1, literalSeg s = true :=
    fun pc hpc => hlit pc (by simp [hpc])
  have hlitT : ∀ s ∈ pySplit T, literalSeg s = true := hlit (T, h) (by simp)
  have hTP : pySplit T ≠ [] := pySplit_ne_nil T
  -- the trie after the three stages of the fold
  have hroot : (buildResolver (l₁ ++ (T, h) :: l₂)).root
      = l₂.foldl (fun t pc => t.register (pySplit pc.1) pc.2)
          ((l₁.foldl (fun t pc => t.register (pySplit pc.1) pc.2)
            CallbackResolver.init.root).register (pySplit T) h) := by
    rw [buildResolver, foldl_register_root, List.foldl_append, List.foldl_cons]
  have hcache : (buildResolver (l₁ ++ (T, h) :: l₂)).cache = [] := by
    rw [buildResolver, foldl_register_cache]
    rfl
  have ht₁lit : (l₁.foldl (fun t pc => t.register (pySplit pc.1) pc.2)
      CallbackResolver.init.root).litSubtree = true :=
    foldl_trie_lit l₁ _ hlit₁
      (by rw [CallbackResolver.init, TopicNode.litSubtree_node, TNodeMap.litChildren])
  have ht₁fol : (l₁.foldl (fun t pc => t.register (pySplit pc.1) pc.2)
      CallbackResolver.init.root).nodes.followPath (pySplit T) = none := by
    rw [foldl_trie_follow l₁ (pySplit T) _ hlit₁ hpre₁ hTP]
    rw [CallbackResolver.init, TopicNode.nodes, TNodeMap.followPath_nil]
  obtain ⟨nd, hnd, hcb, hndnil⟩ :=
    register_follow_fresh (pySplit T)
      (l₁.foldl (fun t pc => t.register (pySplit pc.1) pc.2) CallbackResolver.init.root)
      h hTP hlitT ht₁fol
  have ht₃lit : (l₂.foldl (fun t pc => t.register (pySplit pc.1) pc.2)
      ((l₁.foldl (fun t pc => t.register (pySplit pc.1) pc.2)
        CallbackResolver.init.root).register (pySplit T) h)).litSubtree = true :=
    foldl_trie_lit l₂ _ hlit₂ (register_preserves_lit _ _ _ hlitT ht₁lit)
  have ht₃part : (l₂.foldl (fun t pc => t.register (pySplit pc.1) pc.2)
      ((l₁.foldl (fun t pc => t.register (pySplit pc.1) pc.2)
        CallbackResolver.init.root).register (pySplit T) h)).part = none := by
    rw [foldl_trie_part, TopicNode.register_part, foldl_trie_part]
    rw [CallbackResolver.init, TopicNode.part]
  have ht₃fol : (l₂.foldl (fun t pc => t.register (pySplit pc.1) pc.2)
      ((l₁.foldl (fun t pc => t.register (pySplit pc.1) pc.2)
        CallbackResolver.init.root).register (pySplit T) h)).nodes.followPath (pySplit T)
      = some nd := by
    rw [foldl_trie_follow l₂ (pySplit T) _ hlit₂ hpre₂ hTP]
    exact hnd
  have hlook : (l₂.foldl (fun t pc => t.register (pySplit pc.1) pc.2)
      ((l₁.foldl (fun t pc => t.register (pySplit pc.1) pc.2)
        CallbackResolver.init.root).register (pySplit T) h)).getMatchingNodes (pySplit T) []
      = [⟨nd, [], none⟩] := by
    rw [match_root _ _ _ ht₃part]
    rw [lit_lookup (pySplit T) _ [] hTP (TopicNode.litSubtree_nodes ht₃lit)]
    rw [ht₃fol]
    simp [hndnil, TNodeMap.isEmpty]
  rw [CallbackResolver.getMatchingNodes, hcache]
  simp only [cacheFind]
  rw [hroot, hlook]
  simp [hcb]

/-- C1 witness: patterns `"a/b"` (handler 1) and `"a/b/c"` (handler 2); the
registered pattern `"a/b"` is a strict prefix of `"a/b/c"`, and looking up
`"a/b/c"` returns exactly handler 2. -/
theorem claim1_amended_witness :
    ((buildResolver [("a/b", 1), ("a/b/c", 2)]).getMatchingNodes "a/b/c").1.map
      (fun m => (m.node.callback, m.parameters, m.topic)) = [(some 2, [], some "a/b/c")] :=
  claim1_amended [("a/b", 1), ("a/b/c", 2)] "a/b/c" 2 (by decide) (by decide) (by decide)
    (by decide)

/-- C1 counterexample: with both `"a/b"` and its strict extension `"a/b/c"`
registered (no wildcards anywhere), looking up `"a/b"` returns NO match at
all — not the handler registered for `"a/b"`. -/
theorem claim1_counterexample :
    ((buildResolver [("a/b", 1), ("a/b/c", 2)]).getMatchingNodes "a/b").1 = [] ∧
      ¬ (((buildResolver [("a/b", 1), ("a/b/c", 2)]).getMatchingNodes "a/b").1.length = 1) := by
  exact ⟨rfl, by decide⟩

end Mqroute
